import Mathlib

/-!
Shallow embedding of `crates/uv-normalize/src/extra_name.rs`.

Strings are modelled as lists of byte values (`List Nat`, one entry per
byte), since the normalization rule and the derived orderings of the source
are specified over the underlying bytes.  The crate-internal normalizer
`validate_and_normalize_ref` and the `SmallString` storage type are not part
of the file under verification; they are modelled from the spec (§4.1, §3),
as marked on each such definition.  Serde's self-describing data model is
embedded as the `Value` inductive; a serializer is a total function into
`Value`, a deserializer a function out of `Value` into `Except DeError`.
-/

namespace Uv

/-- Separator byte: `-` (45), `.` (46) or `_` (95). -/
def isSep (c : Nat) : Bool := decide (c = 45 ∨ c = 46 ∨ c = 95)

/-- ASCII alphanumeric byte: digit, uppercase or lowercase letter. -/
def isAlnum (c : Nat) : Bool :=
  decide ((48 ≤ c ∧ c ≤ 57) ∨ (65 ≤ c ∧ c ≤ 90) ∨ (97 ≤ c ∧ c ≤ 122))

/-- Byte allowed in a raw (pre-normalization) name: alphanumeric or separator. -/
def validByte (c : Nat) : Bool := isAlnum c || isSep c

/-- ASCII lowercasing of one byte. -/
def lowerByte (c : Nat) : Nat := if 65 ≤ c ∧ c ≤ 90 then c + 32 else c

/-- Modelled from the spec: the name-normalization rule implemented by the
crate-internal normalizer (§4.1): lowercase ASCII letters and collapse each
maximal run of separator bytes to a single `-` (45). -/
def normalize : List Nat → List Nat
  | [] => []
  | [c] => if isSep c then [45] else [lowerByte c]
  | c1 :: c2 :: rest =>
    if isSep c1 && isSep c2 then normalize (c2 :: rest)
    else (if isSep c1 then 45 else lowerByte c1) :: normalize (c2 :: rest)

/-- Error carrying the offending input, as `InvalidNameError` does (§7). -/
structure InvalidNameError where
  input : List Nat
  deriving DecidableEq

/-- First byte is alphanumeric. -/
def headAlnum : List Nat → Bool
  | [] => false
  | c :: _ => isAlnum c

/-- Last byte is alphanumeric. -/
def lastAlnum (l : List Nat) : Bool :=
  match l.getLast? with
  | some c => isAlnum c
  | none => false

/-- Modelled from the spec: `validate_and_normalize_ref` (§4.1).  Reject
inputs that are empty, contain a byte outside letters, digits and
separators, or whose normalized form does not begin and end with an
alphanumeric; otherwise return the normalized form.  On failure the error
carries the offending input. -/
def validate_and_normalize_ref (s : List Nat) : Except InvalidNameError (List Nat) :=
  if s.all validByte && (headAlnum (normalize s) && lastAlnum (normalize s)) then
    .ok (normalize s)
  else .error ⟨s⟩

/-- Decidable characterization of the strings the normalizer can output:
made of valid bytes, alphanumeric at both ends, and a fixed point of
`normalize`. -/
def isNormalizedName (n : List Nat) : Bool :=
  n.all validByte && (headAlnum n && lastAlnum n) && decide (normalize n = n)

/-- The normalized name of an extra dependency (`ExtraName` newtype).  Per
the newtype discipline (§9) a value exists only as an output of the
normalizer on some accepted input, which is the stored invariant. -/
structure ExtraName where
  name : List Nat
  valid : ∃ s, validate_and_normalize_ref s = .ok name

instance : DecidableEq ExtraName := fun x y =>
  if h : x.name = y.name then
    .isTrue (by cases x; cases y; cases h; rfl)
  else .isFalse (fun hc => h (congrArg ExtraName.name hc))

/-- Return the underlying extra name as a string (`ExtraName::as_str`). -/
def ExtraName.as_str (x : ExtraName) : List Nat := x.name

/-- Embedding of `impl FromStr for ExtraName`:
`validate_and_normalize_ref(name).map(Self)`. -/
def ExtraName.from_str (s : List Nat) : Except InvalidNameError ExtraName :=
  match h : validate_and_normalize_ref s with
  | .ok n => .ok ⟨n, ⟨s, h⟩⟩
  | .error e => .error e

/-- Embedding of `ExtraName::from_owned`:
`validate_and_normalize_ref(&name).map(Self)`. -/
def ExtraName.from_owned (s : List Nat) : Except InvalidNameError ExtraName :=
  match h : validate_and_normalize_ref s with
  | .ok n => .ok ⟨n, ⟨s, h⟩⟩
  | .error e => .error e

instance {ε α : Type} [DecidableEq ε] [DecidableEq α] : DecidableEq (Except ε α) := fun x y =>
  match x, y with
  | .ok a, .ok b => decidable_of_iff (a = b) (by simp)
  | .ok _, .error _ => .isFalse (by simp)
  | .error _, .ok _ => .isFalse (by simp)
  | .error e, .error f => decidable_of_iff (e = f) (by simp)

/-- Value of a self-describing format (serde data model, restricted to the
kinds the spec discusses: strings, sequences, numbers, booleans, null,
maps). -/
inductive Value where
  | str (s : List Nat)
  | seq (elems : List Value)
  | num (n : Int)
  | boolean (b : Bool)
  | null
  | map (entries : List (Value × Value))

/-- Kind tag of a `Value`, used in invalid-type errors. -/
inductive ValueKind where
  | str
  | seq
  | num
  | boolean
  | null
  | map
  deriving DecidableEq

/-- Kind of a value. -/
def Value.kind : Value → ValueKind
  | .str _ => .str
  | .seq _ => .seq
  | .num _ => .num
  | .boolean _ => .boolean
  | .null => .null
  | .map _ => .map

/-- Deserialization errors of the host format's error channel: custom
messages (`serde::de::Error::custom`, either a fixed string or a wrapped
`InvalidNameError`) and invalid-type errors carrying the visitor's
expectation text. -/
inductive DeError where
  | custom (msg : String)
  | customName (e : InvalidNameError)
  | invalidType (got : ValueKind) (expecting : String)
  deriving DecidableEq

/-- Bytes of the sentinel string "all". -/
def allBytes : List Nat := [97, 108, 108]

/-- The fixed sentinel-mismatch message of `StringOrVecVisitor::visit_str`. -/
def sentinelErrorMsg : String :=
  "default-extras must be \"all\" or a [\"list\", \"of\", \"extras\"]"

/-- Expectation text of `StringOrVecVisitor::expecting`. -/
def defaultExtrasExpecting : String := "the string \"all\" or a list of strings"

/-- Expectation text of the `ExtraName` visitor's `expecting`. -/
def extraNameExpecting : String := "a string"

/-- Embedding of `ExtraName`'s derived `Serialize`: the canonical string. -/
def ExtraName.serialize (x : ExtraName) : Value := .str x.name

/-- Embedding of `impl Deserialize for ExtraName`: `deserialize_str` with a
visitor accepting any string and running `from_str`, wrapping its error via
`Error::custom`; any non-string input is an invalid-type error. -/
def ExtraName.deserialize : Value → Except DeError ExtraName
  | .str s =>
    match ExtraName.from_str s with
    | .ok x => .ok x
    | .error e => .error (.customName e)
  | v => .error (.invalidType v.kind extraNameExpecting)

/-- Either the literal "all" or a list of extras (`DefaultExtras`). -/
inductive DefaultExtras where
  | All
  | List (extras : List ExtraName)
  deriving DecidableEq

/-- Embedding of `impl Default for DefaultExtras`: the empty list. -/
def DefaultExtras.default : DefaultExtras := .List []

/-- Embedding of `impl Serialize for DefaultExtras`: `All` becomes the
scalar string "all"; `List extras` becomes a sequence of the serialized
elements, in order. -/
def DefaultExtras.serialize : DefaultExtras → Value
  | .All => .str allBytes
  | .List extras => .seq (extras.map ExtraName.serialize)

/-- The length hint passed to `serialize_seq` by the `List` arm
(`Some(extras.len())`); `All` performs no sequence serialization. -/
def DefaultExtras.serializeSeqLenHint : DefaultExtras → Option Nat
  | .All => none
  | .List extras => some extras.length

/-- Embedding of the `visit_seq` loop: deserialize each element as an
`ExtraName` in order, stopping at the first error. -/
def deserializeExtraList : List Value → Except DeError (List ExtraName)
  | [] => .ok []
  | v :: vs =>
    match ExtraName.deserialize v with
    | .ok x =>
      match deserializeExtraList vs with
      | .ok rest => .ok (x :: rest)
      | .error e => .error e
    | .error e => .error e

/-- Embedding of `impl Deserialize for DefaultExtras` (`deserialize_any`
with `StringOrVecVisitor`): a string must be exactly "all" and produces
`All`, otherwise the fixed custom error; a sequence is parsed element-wise
into `List`; any other kind is an invalid-type error. -/
def DefaultExtras.deserialize : Value → Except DeError DefaultExtras
  | .str s => if s ≠ allBytes then .error (.custom sentinelErrorMsg) else .ok .All
  | .seq vs =>
    match deserializeExtraList vs with
    | .ok extras => .ok (.List extras)
    | .error e => .error e
  | v => .error (.invalidType v.kind defaultExtrasExpecting)

/-- Byte-lexicographic strict order on byte strings.  Modelled from the
spec (§3): `SmallString`'s derived `Ord` is total ordering by the
underlying byte sequence, with a strict prefix ordered first. -/
def byteLt : List Nat → List Nat → Bool
  | [], [] => false
  | [], _ :: _ => true
  | _ :: _, [] => false
  | a :: as1, b :: bs1 => decide (a < b) || (decide (a = b) && byteLt as1 bs1)

/-- Embedding of `ExtraName`'s derived `Ord`: delegate to the byte order of
the stored string. -/
def ExtraName.lt (x y : ExtraName) : Bool := byteLt x.name y.name

/-- Derived `>`: the flip of `<`. -/
def ExtraName.gt (x y : ExtraName) : Bool := ExtraName.lt y x

/-- The strict order on `ExtraName` as a relation, for lexicographic
lifting. -/
def extraNameRel (x y : ExtraName) : Prop := ExtraName.lt x y = true

/-- Modelled from the spec (§3): hashing is derived from the underlying
byte sequence; any deterministic function of the bytes realizes the
contract, here an FNV-style 64-bit fold. -/
def bytesHash (l : List Nat) : Nat :=
  List.foldl (fun h b => (h * 1099511628211 + b) % 2 ^ 64) 14695981039346656037 l

/-- Hash of an `ExtraName`: a function of its canonical bytes. -/
def ExtraName.hashValue (x : ExtraName) : Nat := bytesHash x.name

/-- Lexicographic strict order on vectors of `ExtraName` (derived `Ord` of
`Vec<ExtraName>`): element-wise, with a strict prefix ordered first. -/
def extraListLt : List ExtraName → List ExtraName → Bool
  | [], [] => false
  | [], _ :: _ => true
  | _ :: _, [] => false
  | a :: as1, b :: bs1 => ExtraName.lt a b || (decide (a = b) && extraListLt as1 bs1)

/-- Embedding of `DefaultExtras`'s derived `Ord`: variants compare by
declaration order (`All` before `List`), payloads lexicographically. -/
def DefaultExtras.lt : DefaultExtras → DefaultExtras → Bool
  | .All, .All => false
  | .All, .List _ => true
  | .List _, .All => false
  | .List a, .List b => extraListLt a b

/-- Bytes of "foo". -/
def fooBytes : List Nat := [102, 111, 111]

/-- Bytes of "ALL". -/
def allCapsBytes : List Nat := [65, 76, 76]

/-- Bytes of "Foo". -/
def fooCapBytes : List Nat := [70, 111, 111]

/-- Bytes of "bar_baz". -/
def barUnderBytes : List Nat := [98, 97, 114, 95, 98, 97, 122]

/-- Bytes of "bar-baz". -/
def barDashBytes : List Nat := [98, 97, 114, 45, 98, 97, 122]

/-- Bytes of "Foo__Bar.--baz". -/
def fooBarRawBytes : List Nat := [70, 111, 111, 95, 95, 66, 97, 114, 46, 45, 45, 98, 97, 122]

/-- Bytes of "foo-bar-baz". -/
def fooBarBazBytes : List Nat := [102, 111, 111, 45, 98, 97, 114, 45, 98, 97, 122]

/-- Bytes of "has space". -/
def hasSpaceBytes : List Nat := [104, 97, 115, 32, 115, 112, 97, 99, 101]

/-- The extra named "all" (as a list element, not the sentinel). -/
def allExtra : ExtraName := ⟨allBytes, ⟨allBytes, rfl⟩⟩

/-- The extra named "foo". -/
def fooExtra : ExtraName := ⟨fooBytes, ⟨fooBytes, rfl⟩⟩

/-- The extra named "bar-baz". -/
def barBazExtra : ExtraName := ⟨barDashBytes, ⟨barDashBytes, rfl⟩⟩

theorem lowerByte_idem (c : Nat) : lowerByte (lowerByte c) = lowerByte c := by
  simp only [lowerByte]
  by_cases h : 65 ≤ c ∧ c ≤ 90
  · simp only [if_pos h]
    rw [if_neg (by omega)]
  · simp only [if_neg h]

theorem isSep_lowerByte (c : Nat) : isSep (lowerByte c) = isSep c := by
  simp only [isSep, lowerByte]
  split
  · simp only [decide_eq_decide]
    omega
  · rfl

theorem isSep_45 : isSep 45 = true := by decide

theorem validByte_45 : validByte 45 = true := by decide

theorem validByte_lowerByte (c : Nat) : validByte (lowerByte c) = validByte c := by
  rw [Bool.eq_iff_iff]
  simp only [validByte, isAlnum, isSep, lowerByte, Bool.or_eq_true, decide_eq_true_eq]
  split <;> omega

theorem normalize_ne_nil (c : Nat) (rest : List Nat) : normalize (c :: rest) ≠ [] := by
  induction rest generalizing c with
  | nil => simp only [normalize]; split <;> simp
  | cons c2 rest2 ih =>
    simp only [normalize]
    split
    · exact ih c2
    · simp

theorem normalize_cons_of_not_sep (c : Nat) (rest : List Nat) (h : isSep c = false) :
    ∃ t, normalize (c :: rest) = lowerByte c :: t := by
  cases rest with
  | nil => exact ⟨[], by simp [normalize, h]⟩
  | cons c2 rest2 => exact ⟨normalize (c2 :: rest2), by simp [normalize, h]⟩

theorem normalize_idem (s : List Nat) : normalize (normalize s) = normalize s := by
  induction s using normalize.induct with
  | case1 => rfl
  | case2 c h => simp [normalize, h, isSep_45]
  | case3 c h =>
    simp only [Bool.not_eq_true] at h
    simp [normalize, h, isSep_lowerByte, lowerByte_idem]
  | case4 c1 c2 rest h ih =>
    simp only [normalize]
    rw [if_pos h]
    exact ih
  | case5 c1 c2 rest h ih =>
    by_cases h1 : isSep c1 = true
    · have h2 : isSep c2 = false := by
        cases hc2 : isSep c2
        · rfl
        · exact absurd (by rw [h1, hc2]; rfl) h
      obtain ⟨t, ht⟩ := normalize_cons_of_not_sep c2 rest h2
      have hlc2 : isSep (lowerByte c2) = false := by rw [isSep_lowerByte]; exact h2
      simp only [normalize]
      rw [if_neg h, if_pos h1, ht]
      simp only [normalize]
      rw [if_neg (by rw [isSep_45, hlc2]; simp), if_pos isSep_45, ← ht, ih]
    · simp only [Bool.not_eq_true] at h1
      obtain ⟨d, ds, hn⟩ : ∃ d ds, normalize (c2 :: rest) = d :: ds := by
        cases hc : normalize (c2 :: rest) with
        | nil => exact absurd hc (normalize_ne_nil c2 rest)
        | cons d ds => exact ⟨d, ds, rfl⟩
      have hlc1 : isSep (lowerByte c1) = false := by rw [isSep_lowerByte]; exact h1
      simp only [normalize]
      rw [if_neg h, if_neg (by rw [h1]; simp), hn]
      simp only [normalize]
      rw [if_neg (by rw [hlc1]; simp), if_neg (by rw [hlc1]; simp), lowerByte_idem, ← hn, ih]

theorem normalize_all_valid (s : List Nat) (h : s.all validByte = true) :
    (normalize s).all validByte = true := by
  induction s using normalize.induct with
  | case1 => rfl
  | case2 c hc => simp [normalize, hc, validByte_45]
  | case3 c hc =>
    simp only [Bool.not_eq_true] at hc
    simp only [List.all_cons, List.all_nil, Bool.and_true] at h
    simp [normalize, hc, validByte_lowerByte, h]
  | case4 c1 c2 rest hc ih =>
    simp only [List.all_cons, Bool.and_eq_true] at h
    simp only [normalize]
    rw [if_pos hc]
    exact ih (by simp [List.all_cons, Bool.and_eq_true, h.2.1, h.2.2])
  | case5 c1 c2 rest hc ih =>
    simp only [List.all_cons, Bool.and_eq_true] at h
    have hrest : (c2 :: rest).all validByte = true := by
      simp [List.all_cons, Bool.and_eq_true, h.2.1, h.2.2]
    simp only [normalize]
    rw [if_neg hc]
    simp only [List.all_cons, Bool.and_eq_true]
    refine ⟨?_, ih hrest⟩
    split
    · decide
    · rw [validByte_lowerByte]; exact h.1

theorem validate_ok_isNormalized {s n : List Nat}
    (h : validate_and_normalize_ref s = .ok n) : isNormalizedName n = true := by
  unfold validate_and_normalize_ref at h
  split at h
  · rename_i hcond
    simp only [Except.ok.injEq] at h
    subst h
    simp only [Bool.and_eq_true] at hcond
    simp only [isNormalizedName, Bool.and_eq_true, decide_eq_true_eq]
    exact ⟨⟨normalize_all_valid s hcond.1, hcond.2.1, hcond.2.2⟩, normalize_idem s⟩
  · cases h

theorem isNormalized_validate {n : List Nat} (h : isNormalizedName n = true) :
    validate_and_normalize_ref n = .ok n := by
  simp only [isNormalizedName, Bool.and_eq_true, decide_eq_true_eq] at h
  obtain ⟨⟨hall, hhead, hlast⟩, hidem⟩ := h
  unfold validate_and_normalize_ref
  rw [hidem]
  rw [if_pos (by simp [hall, hhead, hlast])]

theorem ExtraName.ext_name : ∀ {x y : ExtraName}, x.name = y.name → x = y := by
  rintro ⟨n1, h1⟩ ⟨n2, h2⟩ h
  cases h
  rfl

theorem ExtraName.valid_isNormalized (x : ExtraName) : isNormalizedName x.name = true := by
  obtain ⟨s, hs⟩ := x.valid
  exact validate_ok_isNormalized hs

theorem validate_ok_eq_normalize {s n : List Nat}
    (h : validate_and_normalize_ref s = .ok n) : n = normalize s := by
  unfold validate_and_normalize_ref at h
  split at h
  · injection h with h
    exact h.symm
  · cases h

theorem from_str_of_validate_ok {s n : List Nat}
    (h : validate_and_normalize_ref s = .ok n) :
    ∃ x : ExtraName, ExtraName.from_str s = .ok x ∧ x.name = n := by
  unfold ExtraName.from_str
  split
  · rename_i m heq
    rw [h] at heq
    injection heq with he
    subst he
    exact ⟨_, rfl, rfl⟩
  · rename_i e heq
    rw [h] at heq
    cases heq

theorem ExtraName.from_str_name (x : ExtraName) : ExtraName.from_str x.name = .ok x := by
  have hv := isNormalized_validate (ExtraName.valid_isNormalized x)
  unfold ExtraName.from_str
  split
  · rename_i n heq
    rw [hv] at heq
    injection heq with he
    subst he
    rfl
  · rename_i e heq
    rw [hv] at heq
    cases heq

theorem extraName_deserialize_serialize (x : ExtraName) :
    ExtraName.deserialize (ExtraName.serialize x) = .ok x := by
  simp only [ExtraName.serialize, ExtraName.deserialize, ExtraName.from_str_name]

theorem deserializeExtraList_map (l : List ExtraName) :
    deserializeExtraList (l.map ExtraName.serialize) = .ok l := by
  induction l with
  | nil => rfl
  | cons x xs ih =>
    simp only [List.map_cons, deserializeExtraList, extraName_deserialize_serialize, ih]

theorem defaultExtras_deserialize_serialize (d : DefaultExtras) :
    DefaultExtras.deserialize (DefaultExtras.serialize d) = .ok d := by
  cases d with
  | All => rfl
  | List extras =>
    simp only [DefaultExtras.serialize, DefaultExtras.deserialize, deserializeExtraList_map]

theorem deserializeExtraList_ok_iff (vs : List Value) (extras : List ExtraName) :
    deserializeExtraList vs = .ok extras ↔
      List.Forall₂ (fun v x => ExtraName.deserialize v = .ok x) vs extras := by
  induction vs generalizing extras with
  | nil =>
    cases extras with
    | nil => simp [deserializeExtraList]
    | cons x xs => simp [deserializeExtraList]
  | cons v vs ih =>
    cases hd : ExtraName.deserialize v with
    | error e =>
      simp only [deserializeExtraList, hd]
      constructor
      · intro h
        cases h
      · intro h
        cases extras with
        | nil => cases h
        | cons x xs =>
          rcases List.forall₂_cons.mp h with ⟨h1, h2⟩
          rw [hd] at h1
          cases h1
    | ok x =>
      cases hrest : deserializeExtraList vs with
      | error e =>
        simp only [deserializeExtraList, hd, hrest]
        constructor
        · intro h
          cases h
        · intro h
          cases extras with
          | nil => cases h
          | cons y ys =>
            rcases List.forall₂_cons.mp h with ⟨h1, h2⟩
            rw [(ih ys).mpr h2] at hrest
            cases hrest
      | ok rest =>
        simp only [deserializeExtraList, hd, hrest]
        constructor
        · intro h
          injection h with h
          subst h
          exact List.forall₂_cons.mpr ⟨hd, (ih rest).mp hrest⟩
        · intro h
          cases extras with
          | nil => cases h
          | cons y ys =>
            rcases List.forall₂_cons.mp h with ⟨h1, h2⟩
            rw [hd] at h1
            injection h1 with h1
            subst h1
            have hys := (ih ys).mpr h2
            rw [hrest] at hys
            injection hys with h3
            subst h3
            rfl

theorem seq_deserialize_not_all (vs : List Value) :
    DefaultExtras.deserialize (.seq vs) ≠ .ok .All := by
  simp only [DefaultExtras.deserialize]
  cases h : deserializeExtraList vs with
  | ok extras => simp
  | error e => simp

theorem byteLt_iff_lex : ∀ (a b : List Nat), byteLt a b = true ↔ List.Lex (· < ·) a b
  | [], [] => by
    simp only [byteLt, Bool.false_eq_true, false_iff]
    exact List.Lex.not_nil_right _ _
  | [], _ :: _ => by
    simp only [byteLt, true_iff]
    exact List.Lex.nil
  | _ :: _, [] => by
    simp only [byteLt, Bool.false_eq_true, false_iff]
    exact List.Lex.not_nil_right _ _
  | a :: as1, b :: bs1 => by
    simp only [byteLt, Bool.or_eq_true, Bool.and_eq_true, decide_eq_true_eq]
    constructor
    · rintro (h | ⟨rfl, h⟩)
      · exact List.Lex.rel h
      · exact List.Lex.cons ((byteLt_iff_lex as1 bs1).mp h)
    · intro h
      cases h with
      | rel h => exact Or.inl h
      | cons h => exact Or.inr ⟨rfl, (byteLt_iff_lex as1 bs1).mpr h⟩

theorem byteLt_irrefl (a : List Nat) : byteLt a a = false := by
  cases h : byteLt a a
  · rfl
  · exact absurd ((byteLt_iff_lex a a).mp h) (irrefl_of (List.Lex (· < ·)) a)

theorem byteLt_asymm {a b : List Nat} (h : byteLt a b = true) : byteLt b a = false := by
  cases hr : byteLt b a
  · rfl
  · exact absurd ((byteLt_iff_lex b a).mp hr)
      (asymm_of (List.Lex (· < ·)) ((byteLt_iff_lex a b).mp h))

theorem byteLt_trans {a b c : List Nat} (h1 : byteLt a b = true) (h2 : byteLt b c = true) :
    byteLt a c = true :=
  (byteLt_iff_lex a c).mpr
    (trans_of (List.Lex (· < ·)) ((byteLt_iff_lex a b).mp h1) ((byteLt_iff_lex b c).mp h2))

theorem byteLt_trichotomy (a b : List Nat) :
    byteLt a b = true ∨ a = b ∨ byteLt b a = true := by
  haveI : IsTrichotomous (List Nat) (List.Lex (· < ·)) := List.Lex.isTrichotomous _
  rcases trichotomous_of (List.Lex (· < ·)) a b with h | h | h
  · exact Or.inl ((byteLt_iff_lex a b).mpr h)
  · exact Or.inr (Or.inl h)
  · exact Or.inr (Or.inr ((byteLt_iff_lex b a).mpr h))

instance : IsIrrefl ExtraName extraNameRel :=
  ⟨fun x h => by rw [extraNameRel, ExtraName.lt, byteLt_irrefl] at h; cases h⟩

instance : IsTrans ExtraName extraNameRel :=
  ⟨fun _ _ _ h1 h2 => byteLt_trans h1 h2⟩

instance : IsTrichotomous ExtraName extraNameRel :=
  ⟨fun x y => by
    rcases byteLt_trichotomy x.name y.name with h | h | h
    · exact Or.inl h
    · exact Or.inr (Or.inl (ExtraName.ext_name h))
    · exact Or.inr (Or.inr h)⟩

instance : IsStrictTotalOrder ExtraName extraNameRel where

theorem extraListLt_iff_lex :
    ∀ (a b : List ExtraName), extraListLt a b = true ↔ List.Lex extraNameRel a b
  | [], [] => by
    simp only [extraListLt, Bool.false_eq_true, false_iff]
    exact List.Lex.not_nil_right _ _
  | [], _ :: _ => by
    simp only [extraListLt, true_iff]
    exact List.Lex.nil
  | _ :: _, [] => by
    simp only [extraListLt, Bool.false_eq_true, false_iff]
    exact List.Lex.not_nil_right _ _
  | a :: as1, b :: bs1 => by
    simp only [extraListLt, Bool.or_eq_true, Bool.and_eq_true, decide_eq_true_eq]
    constructor
    · rintro (h | ⟨rfl, h⟩)
      · exact List.Lex.rel h
      · exact List.Lex.cons ((extraListLt_iff_lex as1 bs1).mp h)
    · intro h
      cases h with
      | rel h => exact Or.inl h
      | cons h => exact Or.inr ⟨rfl, (extraListLt_iff_lex as1 bs1).mpr h⟩

theorem extraListLt_asymm {a b : List ExtraName} (h : extraListLt a b = true) :
    extraListLt b a = false := by
  cases hr : extraListLt b a
  · rfl
  · exact absurd ((extraListLt_iff_lex b a).mp hr)
      (asymm_of (List.Lex extraNameRel) ((extraListLt_iff_lex a b).mp h))

theorem extraListLt_trans {a b c : List ExtraName} (h1 : extraListLt a b = true)
    (h2 : extraListLt b c = true) : extraListLt a c = true :=
  (extraListLt_iff_lex a c).mpr
    (trans_of (List.Lex extraNameRel) ((extraListLt_iff_lex a b).mp h1)
      ((extraListLt_iff_lex b c).mp h2))

theorem extraListLt_trichotomy (a b : List ExtraName) :
    extraListLt a b = true ∨ a = b ∨ extraListLt b a = true := by
  haveI : IsTrichotomous (List ExtraName) (List.Lex extraNameRel) := List.Lex.isTrichotomous _
  rcases trichotomous_of (List.Lex extraNameRel) a b with h | h | h
  · exact Or.inl ((extraListLt_iff_lex a b).mpr h)
  · exact Or.inr (Or.inl h)
  · exact Or.inr (Or.inr ((extraListLt_iff_lex b a).mpr h))

/-- Claim C1: deserializing the serialized form of any `ExtraName` yields it
back, and deserializing the serialized form of any `DefaultExtras` yields it
back, `All` and `List []` each landing on their own distinct variant. -/
theorem c1_serde_round_trip :
    (∀ x : ExtraName, ExtraName.deserialize (ExtraName.serialize x) = .ok x) ∧
    (∀ d : DefaultExtras, DefaultExtras.deserialize (DefaultExtras.serialize d) = .ok d) ∧
    DefaultExtras.deserialize (DefaultExtras.serialize .All) = .ok .All ∧
    DefaultExtras.deserialize (DefaultExtras.serialize (.List [])) = .ok (.List []) :=
  ⟨extraName_deserialize_serialize, defaultExtras_deserialize_serialize,
    defaultExtras_deserialize_serialize _, defaultExtras_deserialize_serialize _⟩

/-- Claim C2: a scalar string deserializes to `All` exactly when it is
byte-for-byte "all"; any other string yields the fixed sentinel error
message, and any non-string, non-sequence input is an invalid-type error. -/
theorem c2_sentinel_deserialize :
    (∀ s : List Nat, DefaultExtras.deserialize (.str s) = .ok .All ↔ s = allBytes) ∧
    (∀ s : List Nat, s ≠ allBytes →
      DefaultExtras.deserialize (.str s) = .error (.custom sentinelErrorMsg)) ∧
    (∀ n : Int, DefaultExtras.deserialize (.num n) =
      .error (.invalidType .num defaultExtrasExpecting)) ∧
    (∀ entries, DefaultExtras.deserialize (.map entries) =
      .error (.invalidType .map defaultExtrasExpecting)) ∧
    DefaultExtras.deserialize .null = .error (.invalidType .null defaultExtrasExpecting) ∧
    (∀ b : Bool, DefaultExtras.deserialize (.boolean b) =
      .error (.invalidType .boolean defaultExtrasExpecting)) := by
  refine ⟨?_, ?_, fun _ => rfl, fun _ => rfl, rfl, fun _ => rfl⟩
  · intro s
    by_cases hs : s = allBytes
    · subst hs
      simp [DefaultExtras.deserialize]
    · simp [DefaultExtras.deserialize, hs]
  · intro s hs
    simp [DefaultExtras.deserialize, hs]

theorem c2_sentinel_deserialize_witness :
    DefaultExtras.deserialize (.str allCapsBytes) = .error (.custom sentinelErrorMsg) :=
  c2_sentinel_deserialize.2.1 allCapsBytes (by decide)

/-- Claim C3: `All` serializes to the scalar "all"; `List v` serializes to
the sequence of its elements' canonical strings in order, announcing length
`v.length` up-front; `List []` gives the empty sequence, whose kind differs
from the scalar shape of `All`.  Serialization is a total function, so it
never fails of its own accord. -/
theorem c3_serialize_shape :
    DefaultExtras.serialize .All = .str allBytes ∧
    (∀ v : List ExtraName,
      DefaultExtras.serialize (.List v) = .seq (v.map ExtraName.serialize)) ∧
    (∀ x : ExtraName, ExtraName.serialize x = .str x.as_str) ∧
    (∀ v : List ExtraName, DefaultExtras.serializeSeqLenHint (.List v) = some v.length) ∧
    DefaultExtras.serialize (.List []) = .seq [] ∧
    (DefaultExtras.serialize (.List [])).kind = ValueKind.seq ∧
    (DefaultExtras.serialize .All).kind = ValueKind.str :=
  ⟨rfl, fun _ => rfl, fun _ => rfl, fun _ => rfl, rfl, rfl, rfl⟩

/-- Claim C4: deserializing a sequence parses each element as an `ExtraName`
in input order without deduplication and wraps the result in `List`; the
sequence containing just "all" gives `List [allExtra]`, never the `All`
sentinel, and the sequence "Foo", "bar_baz" gives the normalized extras in
that order. -/
theorem c4_seq_deserialize :
    (∀ (vs : List Value) (extras : List ExtraName),
      deserializeExtraList vs = .ok extras ↔
        List.Forall₂ (fun v x => ExtraName.deserialize v = .ok x) vs extras) ∧
    (∀ (vs : List Value) (extras : List ExtraName),
      deserializeExtraList vs = .ok extras →
        DefaultExtras.deserialize (.seq vs) = .ok (.List extras)) ∧
    (∀ vs : List Value, DefaultExtras.deserialize (.seq vs) ≠ .ok .All) ∧
    DefaultExtras.deserialize (.seq [.str allBytes]) = .ok (.List [allExtra]) ∧
    DefaultExtras.deserialize (.seq [.str fooCapBytes, .str barUnderBytes]) =
      .ok (.List [fooExtra, barBazExtra]) := by
  refine ⟨deserializeExtraList_ok_iff, ?_, seq_deserialize_not_all, rfl, rfl⟩
  intro vs extras h
  simp [DefaultExtras.deserialize, h]

theorem c4_seq_deserialize_witness :
    DefaultExtras.deserialize (.seq []) = .ok (.List []) :=
  c4_seq_deserialize.2.1 [] [] rfl

/-- Claim C5: any string the normalizer accepts yields a successful
`from_str` whose stored string is the normalized input; "Foo__Bar.--baz"
maps to "foo-bar-baz", while "" and "has space" are rejected with an
`InvalidNameError` (the only failure mode, by the result type). -/
theorem c5_from_str_contract :
    (∀ s n : List Nat, validate_and_normalize_ref s = .ok n →
      ∃ x : ExtraName, ExtraName.from_str s = .ok x ∧ x.as_str = normalize s) ∧
    (∃ x : ExtraName, ExtraName.from_str fooBarRawBytes = .ok x ∧ x.as_str = fooBarBazBytes) ∧
    (∃ e : InvalidNameError, ExtraName.from_str [] = .error e) ∧
    (∃ e : InvalidNameError, ExtraName.from_str hasSpaceBytes = .error e) := by
  refine ⟨?_, ⟨⟨fooBarBazBytes, fooBarRawBytes, by decide⟩, rfl, rfl⟩,
    ⟨⟨[]⟩, rfl⟩, ⟨⟨hasSpaceBytes⟩, rfl⟩⟩
  intro s n h
  obtain ⟨x, hx, hname⟩ := from_str_of_validate_ok h
  exact ⟨x, hx, by rw [ExtraName.as_str, hname, validate_ok_eq_normalize h]⟩

theorem c5_from_str_contract_witness :
    ∃ x : ExtraName, ExtraName.from_str fooBytes = .ok x ∧ x.as_str = normalize fooBytes :=
  c5_from_str_contract.1 fooBytes fooBytes (by decide)

/-- Claim C6: construction is idempotent: for every `ExtraName` `x`,
`from_str x.as_str` succeeds with a value equal to `x`, and the stored
string is a fixed point of the normalizer. -/
theorem c6_construction_idempotent :
    ∀ x : ExtraName, ExtraName.from_str x.as_str = .ok x ∧ normalize x.as_str = x.as_str :=
  fun x =>
    ⟨ExtraName.from_str_name x, by
      have hv := ExtraName.valid_isNormalized x
      simp only [isNormalizedName, Bool.and_eq_true, decide_eq_true_eq] at hv
      exact hv.2⟩

/-- Claim C7: the default `DefaultExtras` is `List []`, and `All` is not
equal to `List []` (their equality test evaluates to false). -/
theorem c7_default_distinct :
    DefaultExtras.default = DefaultExtras.List [] ∧
    (DefaultExtras.All == DefaultExtras.List []) = false :=
  ⟨rfl, by decide⟩

/-- Claim C8: `from_owned` returns exactly the same result as `from_str` on
every input: the two constructors are the same function. -/
theorem c8_from_owned_equiv :
    ∀ s : List Nat, ExtraName.from_owned s = ExtraName.from_str s :=
  fun _ => rfl

/-- Claim C9: `<`, `==` and `>` on `ExtraName` coincide with
byte-lexicographic order and byte equality of `as_str`, form a strict total
order (asymmetric, transitive, trichotomous), and equal values have equal
hashes. -/
theorem c9_extraname_total_order :
    (∀ x y : ExtraName, ExtraName.lt x y = true ↔ List.Lex (· < ·) x.as_str y.as_str) ∧
    (∀ x y : ExtraName, x = y ↔ x.as_str = y.as_str) ∧
    (∀ x y : ExtraName, ExtraName.gt x y = ExtraName.lt y x) ∧
    (∀ x y : ExtraName, x = y → ExtraName.hashValue x = ExtraName.hashValue y) ∧
    (∀ x y : ExtraName, ExtraName.lt x y = true → ExtraName.lt y x = false) ∧
    (∀ x y z : ExtraName, ExtraName.lt x y = true → ExtraName.lt y z = true →
      ExtraName.lt x z = true) ∧
    (∀ x y : ExtraName, ExtraName.lt x y = true ∨ x = y ∨ ExtraName.lt y x = true) := by
  refine ⟨fun x y => byteLt_iff_lex x.name y.name,
    fun x y => ⟨congrArg ExtraName.name, ExtraName.ext_name⟩,
    fun _ _ => rfl,
    fun x y h => congrArg ExtraName.hashValue h,
    fun _ _ h => byteLt_asymm h,
    fun _ _ _ h1 h2 => byteLt_trans h1 h2,
    ?_⟩
  intro x y
  rcases byteLt_trichotomy x.name y.name with h | h | h
  · exact Or.inl h
  · exact Or.inr (Or.inl (ExtraName.ext_name h))
  · exact Or.inr (Or.inr h)

theorem c9_extraname_total_order_witness :
    ExtraName.lt fooExtra allExtra = false :=
  c9_extraname_total_order.2.2.2.2.1 allExtra fooExtra (by decide)

/-- Claim C10: the derived comparison on `DefaultExtras` is a strict total
order in which `All` is strictly below every `List v` and two `List`s
compare lexicographically element-by-element via the `ExtraName` order. -/
theorem c10_defaultextras_order :
    (∀ v : List ExtraName, DefaultExtras.lt .All (.List v) = true) ∧
    (∀ v : List ExtraName, DefaultExtras.lt (.List v) .All = false) ∧
    DefaultExtras.lt .All .All = false ∧
    (∀ a b : List ExtraName,
      DefaultExtras.lt (.List a) (.List b) = true ↔ List.Lex extraNameRel a b) ∧
    (∀ d e : DefaultExtras, DefaultExtras.lt d e = true ∨ d = e ∨ DefaultExtras.lt e d = true) ∧
    (∀ d e : DefaultExtras, DefaultExtras.lt d e = true → DefaultExtras.lt e d = false) ∧
    (∀ d e f : DefaultExtras, DefaultExtras.lt d e = true → DefaultExtras.lt e f = true →
      DefaultExtras.lt d f = true) := by
  refine ⟨fun _ => rfl, fun _ => rfl, rfl, extraListLt_iff_lex, ?_, ?_, ?_⟩
  · intro d e
    cases d with
    | All =>
      cases e with
      | All => exact Or.inr (Or.inl rfl)
      | List b => exact Or.inl rfl
    | List a =>
      cases e with
      | All => exact Or.inr (Or.inr rfl)
      | List b =>
        rcases extraListLt_trichotomy a b with h | h | h
        · exact Or.inl h
        · exact Or.inr (Or.inl (congrArg DefaultExtras.List h))
        · exact Or.inr (Or.inr h)
  · intro d e h
    cases d with
    | All =>
      cases e with
      | All => cases h
      | List b => rfl
    | List a =>
      cases e with
      | All => cases h
      | List b => exact extraListLt_asymm h
  · intro d e f h1 h2
    cases d with
    | All =>
      cases f with
      | All =>
        cases e with
        | All => exact h1
        | List b => cases h2
      | List fc => rfl
    | List a =>
      cases e with
      | All => cases h1
      | List b =>
        cases f with
        | All => cases h2
        | List fc => exact extraListLt_trans h1 h2

theorem c10_defaultextras_order_witness :
    DefaultExtras.lt (DefaultExtras.List []) DefaultExtras.All = false :=
  c10_defaultextras_order.2.2.2.2.2.1 DefaultExtras.All (DefaultExtras.List []) (by decide)

end Uv
